import Mathlib

/-!
Verification of the breadcrumb timeline, file-field, JSON-form and
frame-renderer components of the repository.

Shallow embedding conventions:
* JavaScript numbers are modelled as rationals (`ℚ`): every arithmetic
  step the claims mention is exact at the inputs involved.
* JavaScript strings are `String`, except where the code slices them
  character-wise (`String.prototype.split`), where `List Char` is used.
* `moment(ts).format('YYYY-MM-DDTHH:mm:ss')` is modelled as an abstract
  function `fmt : String → String`; the theorems quantify over it.
* JavaScript objects used as string-keyed dictionaries are modelled as
  insertion-ordered association lists, matching the enumeration order of
  `Object.entries` for non-index string keys.
-/

namespace Sentry

/-- The fields of a `Crumb` record that `timeline.tsx` reads: `category`
(possibly missing), `timestamp`, `type`, `id` and `color`. -/
structure Crumb where
  category : Option String
  timestamp : String
  type : String
  id : Nat
  color : String
deriving DecidableEq

/-- `NOTABLE_CATEGORIES` from `timeline.tsx`. -/
def NOTABLE_CATEGORIES : List String :=
  ["ui.click", "navigation", "sentry.event", "sentry.transaction",
   "selection", "app.lifecycle", "click"]

/-- The filter predicate of `extractHighlights`: a crumb is kept when its
category is present, non-empty (`!crumb.category` is true for the empty
string) and a member of `NOTABLE_CATEGORIES`. -/
def isNotable (c : Crumb) : Bool :=
  match c.category with
  | none => false
  | some cat => if cat = "" then false else NOTABLE_CATEGORIES.contains cat

/-- A group produced by `extractHighlights`. -/
structure CrumbGroup where
  active : Bool
  crumbs : List Crumb
  timestamp : String
deriving DecidableEq

/-- `mapping[timestamp].push(crumb)` on a JavaScript object, modelled on an
insertion-ordered association list: an existing key keeps its position and
gets the crumb appended; a new key is appended at the end. -/
def addToMapping (m : List (String × List Crumb)) (key : String) (c : Crumb) :
    List (String × List Crumb) :=
  match m with
  | [] => [(key, [c])]
  | (k, v) :: rest =>
      if k = key then (k, v ++ [c]) :: rest else (k, v) :: addToMapping rest key c

/-- The `relevant.forEach` loop of `extractHighlights`: format each crumb's
timestamp with `fmt`, skip it when the formatted key is empty (the
`if (!timestamp) return` guard), otherwise push the crumb under that key. -/
def buildMapping (fmt : String → String) (cs : List Crumb) :
    List (String × List Crumb) :=
  cs.foldl
    (fun m c =>
      let ts := fmt c.timestamp
      if ts = "" then m else addToMapping m ts c)
    []

/-- `extractHighlights` from `timeline.tsx`, with the `moment` key
formatting abstracted as `fmt`. -/
def extractHighlights (fmt : String → String) (crumbs : List Crumb)
    (active : Option Crumb) : List CrumbGroup :=
  let relevant := crumbs.filter isNotable
  let mapping := buildMapping fmt relevant
  let activeTime : Option String := active.map (fun a => fmt a.timestamp)
  mapping.map (fun kv =>
    { timestamp := kv.1, crumbs := kv.2, active := activeTime = some kv.1 })

/-- The data of one `IconWrapper` element pushed by `CrumbItem`: its React
key, color, stacking offset (`icons.length` at push time) and DOM id. -/
structure IconSpec where
  key : String
  color : String
  offset : Nat
  id : String
deriving DecidableEq

/-- The icon built for crumb `c` at loop index `i` with `off` icons already
pushed. -/
def mkIcon (c : Crumb) (i : Nat) (off : Nat) : IconSpec :=
  { key := c.type ++ "-" ++ toString i
    color := c.color
    offset := off
    id := "timeline-" ++ c.type ++ "-" ++ toString c.id }

/-- The `while (icons.length < 5 || !group.crumbs[i])` loop of `CrumbItem`:
when the condition holds and `crumbs[i]` exists the icon is pushed and `i`
incremented, when `crumbs[i]` is missing the loop breaks, and when the
condition fails the loop exits. -/
def crumbIconsAux (crumbs : List Crumb) (icons : List IconSpec) (i : Nat) :
    List IconSpec :=
  if icons.length < 5 ∨ crumbs[i]? = none then
    match h : crumbs[i]? with
    | some c => crumbIconsAux crumbs (icons ++ [mkIcon c i icons.length]) (i + 1)
    | none => icons
  else icons
termination_by crumbs.length - i
decreasing_by
  have hi : i < crumbs.length := (List.getElem?_eq_some.mp h).1
  omega

/-- The icon list rendered by `CrumbItem` for a group's crumbs. -/
def crumbIcons (crumbs : List Crumb) : List IconSpec :=
  crumbIconsAux crumbs [] 0

/-- Helper for stating what `crumbIcons` produces: one icon per crumb, with
the position counter starting at `k`. -/
def iconRow (crumbs : List Crumb) (k : Nat) : List IconSpec :=
  match crumbs with
  | [] => []
  | c :: cs => mkIcon c k k :: iconRow cs (k + 1)

/-- Modelled from the spec: the "canvas-based rectangle renderer" operates
on axis-aligned rectangles. The `Rect` helper class (`gl/utils`) is not
under `src/`; as in its uses here, `withWidth`/`withHeight` return a copy
with the given dimension and `translate` returns a copy positioned at the
given coordinates. -/
structure Rect where
  x : ℚ
  y : ℚ
  width : ℚ
  height : ℚ
deriving DecidableEq

def Rect.withWidth (r : Rect) (w : ℚ) : Rect :=
  { r with width := w }

def Rect.withHeight (r : Rect) (h : ℚ) : Rect :=
  { r with height := h }

def Rect.translate (r : Rect) (x y : ℚ) : Rect :=
  { r with x := x, y := y }

/-- One observable operation on a `CanvasRenderingContext2D`. -/
inductive CanvasOp where
  | setStrokeStyle (color : String)
  | setLineWidth (w : ℚ)
  | beginPath
  | strokeRect (x y w h : ℚ)
deriving DecidableEq

/-- The `borderRect` computed inside `SelectedFrameRenderer.draw` for a
frame already transformed into physical space. -/
def borderRectFor (fp : Rect) (bw : ℚ) : Rect :=
  ((fp.withWidth (fp.width - bw)).withHeight (fp.height - bw)).translate
    (fp.x + bw / 2) (fp.y + bw / 2)

/-- `SelectedFrameRenderer.draw`, recorded as the trace of context
operations it performs. `configViewToPhysicalSpace` abstracts
`frame.transformRect(configViewToPhysicalSpace)` for the given matrix. -/
def drawSelectedFrames (frames : List Rect) (borderColor : String)
    (borderWidth : ℚ) (configViewToPhysicalSpace : Rect → Rect) :
    List CanvasOp :=
  [CanvasOp.setStrokeStyle borderColor, CanvasOp.setLineWidth borderWidth] ++
    frames.flatMap (fun f =>
      let fp := configViewToPhysicalSpace f
      let br := borderRectFor fp borderWidth
      [CanvasOp.beginPath, CanvasOp.strokeRect br.x br.y br.width br.height])

/-- The rectangles stroked in a context trace, in order. -/
def strokedRects : List CanvasOp → List (ℚ × ℚ × ℚ × ℚ)
  | [] => []
  | CanvasOp.strokeRect x y w h :: rest => (x, y, w, h) :: strokedRects rest
  | _ :: rest => strokedRects rest

/-- A file handed to `FileField`: its name and the data URL that
`FileReader.readAsDataURL` produces for it (character-wise, since the code
slices it with `split`). -/
structure SelectedFile where
  name : String
  dataUrl : List Char
deriving DecidableEq

/-- An observable step of the `FileField` upload path. -/
inductive FileFieldEvent where
  | setUploading (b : Bool)
  | readStart
  | readComplete
  | onChange (name : String) (payload : Option (List Char))
deriving DecidableEq

/-- `String.prototype.split` with a one-character separator. -/
def jsSplit (sep : Char) : List Char → List (List Char)
  | [] => [[]]
  | x :: xs =>
      if x = sep then [] :: jsSplit sep xs
      else
        match jsSplit sep xs with
        | [] => [[x]]
        | h :: t => (x :: h) :: t

/-- The `load` listener registered by `handleFile`: call `onChange` with
the file name and `reader.result.split(',')[1]` (a missing element is
`none`), then clear the uploading flag. -/
def fileFieldOnLoad (fileName : String) (result : List Char) :
    List FileFieldEvent :=
  [FileFieldEvent.onChange fileName ((jsSplit ',' result)[1]?),
   FileFieldEvent.setUploading false]

/-- A `FileReader` as `handleFile` uses it: the registered load listeners,
each mapping `reader.result` to the steps its body performs. -/
structure ReaderState where
  listeners : List (List Char → List FileFieldEvent)

/-- `handleFile` from `fileField.tsx`: create a reader, set the uploading
flag, register the load listener, start the read. Returns the steps it
performs synchronously and the reader it leaves behind. -/
def handleFile (file : SelectedFile) : List FileFieldEvent × ReaderState :=
  let reader : ReaderState := { listeners := [] }
  let ops₁ := [FileFieldEvent.setUploading true]
  let reader :=
    { reader with listeners := reader.listeners ++ [fileFieldOnLoad file.name] }
  (ops₁ ++ [FileFieldEvent.readStart], reader)

/-- A complete file selection: the synchronous part of `handleFile`, then
the read completes, then the reader fires `load` on its listeners. -/
def runFileSelection (file : SelectedFile) : List FileFieldEvent :=
  let (syncOps, reader) := handleFile file
  syncOps ++ [FileFieldEvent.readComplete] ++
    (reader.listeners.map (fun l => l file.dataUrl)).flatten

/-- The visual output of `FileField`'s `field` render: the `accept`
attribute handed to the input (`accept?.join(', ')`) and the text of the
upload indicator (empty when not uploading). -/
structure FileFieldView where
  accept : Option String
  indicator : String
deriving DecidableEq

/-- `FileField`'s render as a function of its `accept` prop and its local
`isUploading` state. -/
def fileFieldView (accept : Option (List String)) (isUploading : Bool) :
    FileFieldView :=
  { accept := accept.map (String.intercalate ", ")
    indicator :=
      if isUploading then "This is a janky upload indicator. Wait to hit save!"
      else "" }

/-- Modelled from the spec: the user record some `JsonForm` field
descriptors dereference through `additionalFieldProps` (the `JsonForm`
implementation is not under `src/`; only its tests are). -/
structure UserRec where
  email : String
deriving DecidableEq

/-- A field descriptor's `visible` property: absent, a boolean, or a
function of the additional field props. -/
inductive Visibility where
  | always
  | vis (b : Bool)
  | visFn (f : Option UserRec → Except String Bool)

/-- A `JsonForm` field descriptor, reduced to the parts the panel-hiding
logic reads. -/
structure JFField where
  name : String
  visible : Visibility

/-- Modelled from the spec: evaluating a field's `visible` property. A
function `visible` that dereferences missing `additionalFieldProps` throws,
modelled as `Except.error` carrying the JavaScript error message. -/
def evalVisible (v : Visibility) (props : Option UserRec) :
    Except String Bool :=
  match v with
  | Visibility.always => Except.ok true
  | Visibility.vis b => Except.ok b
  | Visibility.visFn f => f props

/-- The `visible` function of the `accountDetails` email field,
`({user}) => !!user.email`: with no `additionalFieldProps` the `user`
dereference throws. -/
def requiresEmail : Option UserRec → Except String Bool :=
  fun props =>
    match props with
    | none => Except.error "Cannot read properties of undefined (reading 'email')"
    | some u => Except.ok (!(u.email == ""))

/-- The props of one `JsonForm` panel group. -/
structure JsonFormProps where
  fields : List JFField
  additionalFieldProps : Option UserRec
  renderHeader : Bool
  renderFooter : Bool

/-- Evaluate the `visible` property of each field in order, stopping at
the first field whose `visible` function throws, and pair each field name
with its visibility. -/
def evalFields (props : Option UserRec) :
    List JFField → Except String (List (String × Bool))
  | [] => Except.ok []
  | f :: fs =>
      match evalVisible f.visible props with
      | Except.error e => Except.error e
      | Except.ok b =>
          match evalFields props fs with
          | Except.error e => Except.error e
          | Except.ok rest => Except.ok ((f.name, b) :: rest)

/-- Modelled from the spec: `JsonForm` renders one `FormPanel` per group,
"omitting a panel when no visible fields exist"; per its tests the panel
is also kept whenever a `renderHeader` or `renderFooter` prop is passed.
Evaluating the fields' `visible` properties can throw, which aborts the
render. Returns `none` when the panel is omitted, otherwise the names of
the visible fields shown in the panel. -/
def renderJsonForm (p : JsonFormProps) : Except String (Option (List String)) :=
  match evalFields p.additionalFieldProps p.fields with
  | Except.error e => Except.error e
  | Except.ok evaluated =>
      let shown := (evaluated.filter (fun fb => fb.2)).map (fun fb => fb.1)
      if shown.isEmpty ∧ p.renderHeader = false ∧ p.renderFooter = false then
        Except.ok none
      else
        Except.ok (some shown)

/-- Measurement names that are standard (non-custom) metrics. Modelled from
the spec: the `EventCustomPerformanceMetrics` implementation is not under
`src/`; its tests treat `lcp` (Largest Contentful Paint) as standard and
`custom.*` names as custom. -/
def KNOWN_MEASUREMENTS : List String :=
  ["fp", "fcp", "lcp", "fid", "cls", "ttfb", "ttfb.requesttime",
   "app_start_cold", "app_start_warm", "frames_total", "frames_slow",
   "frames_frozen", "stall_count", "stall_total_time", "stall_longest_time",
   "stall_percentage"]

/-- One measurement key/value/unit triple from an event. -/
structure Measurement where
  key : String
  value : ℚ
  unit : String
deriving DecidableEq

/-- Render the fraction `num / den` (with `den > 0`) with exactly `d`
digits after the decimal point (truncating), as JavaScript's `toFixed`
does at the non-negative inputs involved. -/
def formatFixedND (num den : Int) (d : Nat) : String :=
  let scaled : Int := (num * (10 : Int) ^ d).fdiv den
  let intPart := scaled.fdiv ((10 : Int) ^ d)
  let fracPart := (scaled % (10 : Int) ^ d).toNat
  let fracDigits := toString fracPart
  let padded :=
    String.mk (List.replicate (d - fracDigits.length) '0') ++ fracDigits
  if d = 0 then toString intPart else toString intPart ++ "." ++ padded

/-- Render the fraction `num / den` as a plain decimal numeral: no decimal
point when it is an integer, two decimals otherwise. -/
def formatPlainND (num den : Int) : String :=
  if num % den = 0 then toString (num.fdiv den) else formatFixedND num den 2

/-- `formatFixedND` on a rational. -/
def formatFixed (v : ℚ) (d : Nat) : String :=
  formatFixedND v.num (v.den : Int) d

/-- `formatPlainND` on a rational. -/
def formatPlain (v : ℚ) : String :=
  formatPlainND v.num (v.den : Int)

/-- Modelled from the spec: the value of a measurement is "rendered as a
table" cell formatted according to its unit, per the
`EventCustomPerformanceMetrics` tests: `none` plain, `millisecond` with
two decimals and an `ms` suffix, `kibibyte` with one decimal and a
` KiB` suffix, `ratio` as a percentage (the value times one hundred). -/
def formatMetricValue (unit : String) (v : ℚ) : String :=
  if unit = "millisecond" then formatFixed v 2 ++ "ms"
  else if unit = "kibibyte" then formatFixed v 1 ++ " KiB"
  else if unit = "ratio" then formatPlainND (v.num * 100) (v.den : Int) ++ "%"
  else formatPlain v

/-- Whether a measurement name is a custom metric. -/
def isCustomMeasurement (key : String) : Bool :=
  !(KNOWN_MEASUREMENTS.contains key)

/-- Modelled from the spec: `EventCustomPerformanceMetrics` renders the
"Custom Performance Metrics" panel exactly when the event has at least one
custom measurement, showing one `(key, formatted value)` row per custom
measurement and no rows for standard metrics. -/
def renderCustomMetrics (measurements : List Measurement) :
    Option (String × List (String × String)) :=
  let custom := measurements.filter (fun m => isCustomMeasurement m.key)
  if custom.isEmpty then none
  else
    some ("Custom Performance Metrics",
      custom.map (fun m => (m.key, formatMetricValue m.unit m.value)))

lemma strokedRects_append (a b : List CanvasOp) :
    strokedRects (a ++ b) = strokedRects a ++ strokedRects b := by
  induction a with
  | nil => rfl
  | cons op rest ih =>
      cases op <;> simp [strokedRects, ih]

lemma strokedRects_flatMap (frames : List Rect) (bw : ℚ) (T : Rect → Rect) :
    strokedRects
        (frames.flatMap (fun f =>
          let fp := T f
          let br := borderRectFor fp bw
          [CanvasOp.beginPath,
           CanvasOp.strokeRect br.x br.y br.width br.height])) =
      frames.map (fun f =>
        ((borderRectFor (T f) bw).x, (borderRectFor (T f) bw).y,
         (borderRectFor (T f) bw).width, (borderRectFor (T f) bw).height)) := by
  induction frames with
  | nil => rfl
  | cons f rest ih =>
      simp only [List.flatMap_cons, List.map_cons, strokedRects_append, ← ih]
      rfl

lemma jsSplit_ne_nil (sep : Char) (l : List Char) : jsSplit sep l ≠ [] := by
  induction l with
  | nil => simp [jsSplit]
  | cons x xs ih =>
      by_cases hx : x = sep
      · simp [jsSplit, hx]
      · simp only [jsSplit, if_neg hx]
        cases h : jsSplit sep xs with
        | nil => simp
        | cons h t => simp

lemma jsSplit_no_sep (sep : Char) (l : List Char) (h : sep ∉ l) :
    jsSplit sep l = [l] := by
  induction l with
  | nil => rfl
  | cons x xs ih =>
      have hx : x ≠ sep := fun hc => h (hc ▸ List.mem_cons_self x xs)
      have hxs : sep ∉ xs := fun hc => h (List.mem_cons_of_mem x hc)
      simp [jsSplit, if_neg hx, ih hxs]

lemma jsSplit_first (sep : Char) (pre post : List Char) (h : sep ∉ pre) :
    jsSplit sep (pre ++ sep :: post) = pre :: jsSplit sep post := by
  induction pre with
  | nil => simp [jsSplit]
  | cons x xs ih =>
      have hx : x ≠ sep := fun hc => h (hc ▸ List.mem_cons_self x xs)
      have hxs : sep ∉ xs := fun hc => h (List.mem_cons_of_mem x hc)
      simp only [List.cons_append, jsSplit, if_neg hx, List.append_eq, ih hxs]

/-- **C10** — For every frame, the rectangle actually stroked by
`SelectedFrameRenderer.draw` has origin `(x + bw/2, y + bw/2)`, width
`w − bw` and height `h − bw`, where `(x, y, w, h)` is the frame
transformed into physical space and `bw` the border width: the border is
inset inside the frame by half the border width on each side, with width
and height reduced by exactly `bw` (not increased, as the inline comment
says). -/
theorem draw_strokes_inset_rect (r : Rect) (color : String) (bw : ℚ)
    (T : Rect → Rect) :
    strokedRects (drawSelectedFrames [r] color bw T) =
      [((T r).x + bw / 2, (T r).y + bw / 2,
        (T r).width - bw, (T r).height - bw)] := by
  simp [drawSelectedFrames, strokedRects_append, strokedRects, borderRectFor,
    Rect.withWidth, Rect.withHeight, Rect.translate]

/-- **C6** — `SelectedFrameRenderer.draw` first sets the context's
`strokeStyle` to `BORDER_COLOR` and `lineWidth` to `BORDER_WIDTH`, then
strokes exactly one rectangle per frame, in input order, each derived from
that frame transformed into physical space; an empty frame list strokes
nothing. -/
theorem draw_one_rect_per_frame (frames : List Rect) (color : String)
    (bw : ℚ) (T : Rect → Rect) :
    (drawSelectedFrames frames color bw T).take 2 =
        [CanvasOp.setStrokeStyle color, CanvasOp.setLineWidth bw] ∧
      strokedRects (drawSelectedFrames frames color bw T) =
        frames.map (fun f =>
          ((borderRectFor (T f) bw).x, (borderRectFor (T f) bw).y,
           (borderRectFor (T f) bw).width, (borderRectFor (T f) bw).height)) ∧
      (strokedRects (drawSelectedFrames frames color bw T)).length =
        frames.length ∧
      (frames = [] →
        strokedRects (drawSelectedFrames frames color bw T) = []) := by
  have h2 : strokedRects (drawSelectedFrames frames color bw T) =
      frames.map (fun f =>
        ((borderRectFor (T f) bw).x, (borderRectFor (T f) bw).y,
         (borderRectFor (T f) bw).width, (borderRectFor (T f) bw).height)) := by
    simp only [drawSelectedFrames, strokedRects_append, strokedRects]
    simpa using strokedRects_flatMap frames bw T
  refine ⟨rfl, h2, ?_, ?_⟩
  · rw [h2, List.length_map]
  · intro h
    subst h
    rfl

/-- **C7 (counterexample)** — Not every component's output is a function of
its input props alone: with identical props, `FileField` renders different
visual output depending on its local `isUploading` state (the upload
indicator), so two-run determinism over props fails. -/
theorem fileField_output_depends_on_local_state :
    fileFieldView none true ≠ fileFieldView none false := by
  intro h
  exact absurd (congrArg FileFieldView.indicator h) (by decide)

/-- **C7 (amended)** — Components map props (and, for `FileField`, the
local `isUploading` flag) to visual output deterministically: for fixed
props, `FileField`'s output is determined by, and determines, its
`isUploading` state. -/
theorem fileField_view_determined_by_props_and_state
    (accept : Option (List String)) (u₁ u₂ : Bool) :
    fileFieldView accept u₁ = fileFieldView accept u₂ ↔ u₁ = u₂ := by
  constructor
  · intro h
    have hi := congrArg FileFieldView.indicator h
    simp only [fileFieldView] at hi
    cases u₁ <;> cases u₂ <;> first
      | rfl
      | exact absurd hi (by decide)
  · intro h
    rw [h]

/-- **C3** — For every file selection in `FileField`, the steps happen in
this order: `isUploading` is set to `true` and the read starts; only after
the read completes is the field's `onChange` invoked with the file name
and the base64 payload of the data URL (the part after the first comma),
and then `isUploading` is set back to `false`; `onChange` is never invoked
before the read completes. Stated for data URLs whose base64 payload
contains no comma, which `readAsDataURL` guarantees. -/
theorem fileField_upload_order (name : String) (pre post : List Char)
    (hpre : ',' ∉ pre) (hpost : ',' ∉ post) :
    runFileSelection ⟨name, pre ++ ',' :: post⟩ =
      [FileFieldEvent.setUploading true, FileFieldEvent.readStart,
       FileFieldEvent.readComplete,
       FileFieldEvent.onChange name (some post),
       FileFieldEvent.setUploading false] := by
  simp only [runFileSelection, handleFile, fileFieldOnLoad, List.map_cons,
    List.map_nil, List.flatten, List.nil_append, List.append_nil]
  rw [jsSplit_first ',' pre post hpre, jsSplit_no_sep ',' post hpost]
  rfl

/-- Witness for C3: a concrete selection of `hello.txt` whose data URL is
`data:;base64,aGk=` produces exactly the claimed step sequence with
payload `aGk=`. -/
theorem fileField_upload_order_witness :
    (',' ∉ "data:;base64".toList) ∧ (',' ∉ "aGk=".toList) ∧
      runFileSelection ⟨"hello.txt", "data:;base64".toList ++ ',' :: "aGk=".toList⟩ =
        [FileFieldEvent.setUploading true, FileFieldEvent.readStart,
         FileFieldEvent.readComplete,
         FileFieldEvent.onChange "hello.txt" (some "aGk=".toList),
         FileFieldEvent.setUploading false] :=
  ⟨by decide, by decide,
    fileField_upload_order "hello.txt" "data:;base64".toList "aGk=".toList
      (by decide) (by decide)⟩

lemma iconRow_length (l : List Crumb) (k : Nat) :
    (iconRow l k).length = l.length := by
  induction l generalizing k with
  | nil => rfl
  | cons c cs ih => simp [iconRow, ih]

lemma iconRow_eq_enumFrom_map (l : List Crumb) (k : Nat) :
    iconRow l k = (List.enumFrom k l).map (fun p => mkIcon p.2 p.1 p.1) := by
  induction l generalizing k with
  | nil => rfl
  | cons c cs ih =>
      rw [iconRow, ih (k + 1)]
      simp [List.enumFrom]

lemma crumbIconsAux_spec (n : Nat) :
    ∀ (crumbs : List Crumb) (i : Nat) (icons : List IconSpec),
      icons.length = i → 5 - i ≤ n →
      crumbIconsAux crumbs icons i =
        icons ++ iconRow ((crumbs.drop i).take (5 - i)) i := by
  induction n with
  | zero =>
      intro crumbs i icons hlen hn
      have hi : 5 ≤ i := by omega
      have h5 : 5 - i = 0 := by omega
      rw [crumbIconsAux]
      have hnotlt : ¬ icons.length < 5 := by omega
      rcases h : crumbs[i]? with _ | c
      · simp [h, hnotlt, h5, iconRow]
      · simp [h, hnotlt, h5, iconRow]
  | succ n ih =>
      intro crumbs i icons hlen hn
      rw [crumbIconsAux]
      by_cases hcond : icons.length < 5 ∨ crumbs[i]? = none
      · rw [if_pos hcond]
        split
        next c hsome =>
          have hi : i < crumbs.length := (List.getElem?_eq_some.mp hsome).1
          have hlt : icons.length < 5 := by
            rcases hcond with h5 | hnone
            · exact h5
            · rw [hsome] at hnone
              cases hnone
          have hi5 : i < 5 := by omega
          have hlen' : (icons ++ [mkIcon c i icons.length]).length = i + 1 := by
            simp [hlen]
          have hn' : 5 - (i + 1) ≤ n := by omega
          rw [ih crumbs (i + 1) (icons ++ [mkIcon c i icons.length]) hlen' hn']
          have hdrop : crumbs.drop i = c :: crumbs.drop (i + 1) := by
            rcases List.getElem?_eq_some.mp hsome with ⟨hlt', hget⟩
            rw [List.drop_eq_getElem_cons hlt', hget]
          have htake : (crumbs.drop i).take (5 - i) =
              c :: (crumbs.drop (i + 1)).take (5 - (i + 1)) := by
            rw [hdrop]
            have h51 : 5 - i = (5 - (i + 1)) + 1 := by omega
            rw [h51, List.take_succ_cons]
          rw [htake]
          simp [iconRow, hlen]
        next hnone =>
          have hle : crumbs.length ≤ i := List.getElem?_eq_none_iff.mp hnone
          rw [List.drop_eq_nil_of_le hle]
          simp [iconRow]
      · rw [if_neg hcond]
        push_neg at hcond
        have h5 : 5 - i = 0 := by omega
        rw [h5]
        simp [iconRow]

/-- **C8** — The icon-building while loop in `CrumbItem` terminates (it is
a total function here) and pushes exactly `min 5 n` icons for a group of
`n` crumbs: never more than five, and one icon per crumb, taken from the
front of the group's crumb list, for groups of five or fewer. -/
theorem crumbIcons_min_five (crumbs : List Crumb) :
    (crumbIcons crumbs).length = min 5 crumbs.length ∧
      crumbIcons crumbs =
        (crumbs.take 5).enum.map (fun p => mkIcon p.2 p.1 p.1) := by
  have h := crumbIconsAux_spec 5 crumbs 0 [] rfl (by omega)
  rw [crumbIcons, h]
  simp only [List.drop_zero, List.nil_append]
  constructor
  · rw [iconRow_length, List.length_take]
  · rw [iconRow_eq_enumFrom_map]
    rfl

lemma evalFields_all_false (props : Option UserRec) :
    ∀ fields : List JFField,
      (∀ f ∈ fields, evalVisible f.visible props = Except.ok false) →
      evalFields props fields =
        Except.ok (fields.map (fun f => (f.name, false))) := by
  intro fields
  induction fields with
  | nil => intro _; rfl
  | cons f fs ih =>
      intro hv
      have hf : evalVisible f.visible props = Except.ok false :=
        hv f (List.mem_cons_self f fs)
      have hfs := ih (fun g hg => hv g (List.mem_cons_of_mem f hg))
      simp [evalFields, hf, hfs]

lemma evalFields_error (props : Option UserRec) (nm : String)
    (g : Option UserRec → Except String Bool) (msg : String)
    (hg : g props = Except.error msg) :
    ∀ pre suf : List JFField,
      (∀ f ∈ pre, ∃ b, evalVisible f.visible props = Except.ok b) →
      evalFields props
          (pre ++ { name := nm, visible := Visibility.visFn g } :: suf) =
        Except.error msg := by
  intro pre
  induction pre with
  | nil =>
      intro suf _
      simp [evalFields, evalVisible, hg]
  | cons f fs ih =>
      intro suf hpre
      obtain ⟨b, hb⟩ := hpre f (List.mem_cons_self f fs)
      have hfs := ih suf (fun q hq => hpre q (List.mem_cons_of_mem f hq))
      simp [evalFields, hb, hfs]

/-- **C2 (counterexample)** — A `JsonForm` whose only field evaluates to
`visible = false` but which is given a `renderHeader` prop does render a
`FormPanel`: the claim fails without the "no `renderHeader`/`renderFooter`"
proviso. -/
theorem jsonForm_invisible_with_header_renders_panel :
    evalVisible (Visibility.vis false) none = Except.ok false ∧
      renderJsonForm
          { fields := [{ name := "name", visible := Visibility.vis false }],
            additionalFieldProps := none,
            renderHeader := true, renderFooter := false } ≠
        Except.ok none := by
  constructor
  · rfl
  · intro h
    rw [show renderJsonForm
          { fields := [{ name := "name", visible := Visibility.vis false }],
            additionalFieldProps := none,
            renderHeader := true, renderFooter := false } =
        Except.ok (some []) from rfl] at h
    cases h

/-- **C2 (amended)** — For every `JsonForm` panel whose field descriptors
all evaluate to `visible = false` (boolean or function), and which has
neither a `renderHeader` nor a `renderFooter` prop, no `FormPanel` is
rendered. -/
theorem jsonForm_all_invisible_hides_panel (p : JsonFormProps)
    (hh : p.renderHeader = false) (hf : p.renderFooter = false)
    (hv : ∀ f ∈ p.fields,
      evalVisible f.visible p.additionalFieldProps = Except.ok false) :
    renderJsonForm p = Except.ok none := by
  rw [renderJsonForm, evalFields_all_false p.additionalFieldProps p.fields hv]
  have hfilter :
      (p.fields.map (fun f => (f.name, false))).filter (fun fb => fb.2) = [] := by
    rw [List.filter_eq_nil_iff]
    intro a ha
    rcases List.mem_map.mp ha with ⟨f, _, rfl⟩
    simp
  simp [hfilter, hh, hf]

/-- Witness for the amended C2: a two-field panel with one boolean-false
and one function-false `visible`, no header and no footer, renders no
panel. -/
theorem jsonForm_all_invisible_hides_panel_witness :
    renderJsonForm
        { fields := [{ name := "email", visible := Visibility.vis false },
                     { name := "username",
                       visible := Visibility.visFn (fun _ => Except.ok false) }],
          additionalFieldProps := some { email := "foo@example.com" },
          renderHeader := false, renderFooter := false } =
      Except.ok none :=
  jsonForm_all_invisible_hides_panel
    { fields := [{ name := "email", visible := Visibility.vis false },
                 { name := "username",
                   visible := Visibility.visFn (fun _ => Except.ok false) }],
      additionalFieldProps := some { email := "foo@example.com" },
      renderHeader := false, renderFooter := false }
    rfl rfl
    (by
      intro f hf
      rcases List.mem_cons.mp hf with rfl | hf2
      · rfl
      rcases List.mem_cons.mp hf2 with rfl | hf3
      · rfl
      cases hf3)

/-- **C4** — Rendering a `JsonForm` that contains a field whose `visible`
property is a function dereferencing `additionalFieldProps` data, without
supplying `additionalFieldProps`, throws that function's error (the form is
not rendered without the field): any earlier fields that evaluate cleanly
do not change this. -/
theorem jsonForm_missing_props_throws (pre suf : List JFField) (nm : String)
    (g : Option UserRec → Except String Bool) (msg : String)
    (hdr ftr : Bool)
    (hpre : ∀ f ∈ pre, ∃ b, evalVisible f.visible none = Except.ok b)
    (hg : g none = Except.error msg) :
    renderJsonForm
        { fields := pre ++ { name := nm, visible := Visibility.visFn g } :: suf,
          additionalFieldProps := none,
          renderHeader := hdr, renderFooter := ftr } =
      Except.error msg := by
  rw [renderJsonForm]
  rw [evalFields_error none nm g msg hg pre suf hpre]

/-- Witness for C4: the `accountDetails`-style field whose `visible`
function reads `user.email` throws
"Cannot read properties of undefined (reading 'email')" when
`additionalFieldProps` is missing. -/
theorem jsonForm_missing_props_throws_witness :
    requiresEmail none =
        Except.error "Cannot read properties of undefined (reading 'email')" ∧
      renderJsonForm
          { fields := [{ name := "email", visible := Visibility.visFn requiresEmail }],
            additionalFieldProps := none,
            renderHeader := false, renderFooter := false } =
        Except.error "Cannot read properties of undefined (reading 'email')" :=
  ⟨rfl,
    jsonForm_missing_props_throws [] [] "email" requiresEmail
      "Cannot read properties of undefined (reading 'email')" false false
      (by intro f hf; cases hf) rfl⟩

/-- **C5** — `EventCustomPerformanceMetrics` renders the "Custom
Performance Metrics" panel iff the event's measurements contain at least
one custom metric; standard metrics (e.g. `lcp`) are never shown; each
custom metric shown displays its key and its unit-formatted value, with
`none 10 ↦ "10"`, `millisecond 123 ↦ "123.00ms"`,
`kibibyte 456 ↦ "456.0 KiB"` and `ratio 0.3 ↦ "30%"`. -/
theorem customMetrics_spec (ms : List Measurement) :
    ((renderCustomMetrics ms).isSome ↔
        ∃ m ∈ ms, isCustomMeasurement m.key = true) ∧
      (∀ title rows, renderCustomMetrics ms = some (title, rows) →
        title = "Custom Performance Metrics" ∧
          rows = (ms.filter (fun m => isCustomMeasurement m.key)).map
              (fun m => (m.key, formatMetricValue m.unit m.value)) ∧
          (∀ r ∈ rows, isCustomMeasurement r.1 = true) ∧
          "lcp" ∉ rows.map Prod.fst) ∧
      formatMetricValue "none" 10 = "10" ∧
      formatMetricValue "millisecond" 123 = "123.00ms" ∧
      formatMetricValue "kibibyte" 456 = "456.0 KiB" ∧
      formatMetricValue "ratio" (3 / 10) = "30%" := by
  refine ⟨?_, ?_, by decide, by decide, by decide, ?_⟩
  · rw [renderCustomMetrics]
    by_cases hemp : (ms.filter (fun m => isCustomMeasurement m.key)).isEmpty
    · rw [if_pos hemp]
      simp only [Option.isSome_none, Bool.false_eq_true, false_iff]
      rw [List.isEmpty_iff, List.filter_eq_nil_iff] at hemp
      rintro ⟨m, hm, hc⟩
      exact absurd hc (by simpa using hemp m hm)
    · rw [if_neg hemp]
      simp only [Option.isSome_some, true_iff]
      rw [List.isEmpty_iff] at hemp
      rcases List.exists_mem_of_ne_nil _ hemp with ⟨m, hm⟩
      rcases List.mem_filter.mp hm with ⟨hmem, hcust⟩
      exact ⟨m, hmem, hcust⟩
  · intro title rows h
    rw [renderCustomMetrics] at h
    by_cases hemp : (ms.filter (fun m => isCustomMeasurement m.key)).isEmpty
    · rw [if_pos hemp] at h
      cases h
    · rw [if_neg hemp] at h
      injection h with h
      injection h with h1 h2
      subst h1
      subst h2
      refine ⟨rfl, rfl, ?_, ?_⟩
      · intro r hr
        rcases List.mem_map.mp hr with ⟨m, hm, rfl⟩
        exact (List.mem_filter.mp hm).2
      · intro hlcp
        rw [List.map_map] at hlcp
        rcases List.mem_map.mp hlcp with ⟨m, hm, hkey⟩
        have hc := (List.mem_filter.mp hm).2
        have : m.key = "lcp" := hkey
        rw [this] at hc
        exact absurd hc (by decide)
  · have hn : ((3 : ℚ) / 10).num = 3 := by norm_num
    have hd : ((3 : ℚ) / 10).den = 10 := by norm_num
    rw [formatMetricValue]
    rw [if_neg (by decide), if_neg (by decide), if_pos rfl, hn, hd]
    decide

lemma addToMapping_keys (key : String) (c : Crumb) :
    ∀ m : List (String × List Crumb),
      (addToMapping m key c).map Prod.fst =
        if key ∈ m.map Prod.fst then m.map Prod.fst
        else m.map Prod.fst ++ [key] := by
  intro m
  induction m with
  | nil => simp [addToMapping]
  | cons kv rest ih =>
      obtain ⟨k, v⟩ := kv
      by_cases hk : k = key
      · subst hk
        simp [addToMapping]
      · rw [show addToMapping ((k, v) :: rest) key c =
            (k, v) :: addToMapping rest key c by
          simp [addToMapping, hk]]
        by_cases hmem : key ∈ rest.map Prod.fst
        · simp [ih, hmem, Ne.symm hk]
        · simp [ih, hmem, Ne.symm hk, hk]

lemma addToMapping_values (fmt : String → String) (key : String) (c : Crumb)
    (hc : fmt c.timestamp = key) :
    ∀ (m : List (String × List Crumb)) (P : List Crumb),
      (m.map Prod.fst).Nodup →
      (∀ kv ∈ m, kv.2 = P.filter (fun x => fmt x.timestamp == kv.1)) →
      (key ∉ m.map Prod.fst →
        P.filter (fun x => fmt x.timestamp == key) = []) →
      ∀ kv ∈ addToMapping m key c,
        kv.2 = (P ++ [c]).filter (fun x => fmt x.timestamp == kv.1) := by
  intro m
  induction m with
  | nil =>
      intro P _ _ hfresh kv hkv
      rcases List.mem_singleton.mp hkv with rfl
      simp [List.filter_append, hfresh (by simp), hc]
  | cons hd rest ih =>
      intro P hnodup hvals hfresh kv hkv
      obtain ⟨k, v⟩ := hd
      by_cases hk : k = key
      · subst hk
        rw [show addToMapping ((k, v) :: rest) k c =
            (k, v ++ [c]) :: rest by simp [addToMapping]] at hkv
        rcases List.mem_cons.mp hkv with rfl | hmem
        · have hv := hvals (k, v) (List.mem_cons_self _ _)
          simp only at hv
          simp [List.filter_append, hv, hc]
        · have hv := hvals kv (List.mem_cons_of_mem _ hmem)
          have hne : kv.1 ≠ k := by
            intro heq
            have hk1 : kv.1 ∈ rest.map Prod.fst := List.mem_map_of_mem _ hmem
            rw [heq] at hk1
            rw [List.map_cons] at hnodup
            exact (List.nodup_cons.mp hnodup).1 hk1
          rw [hv, List.filter_append]
          have : (fmt c.timestamp == kv.1) = false := by
            rw [hc]
            exact beq_false_of_ne (Ne.symm hne)
          simp [this]
      · rw [show addToMapping ((k, v) :: rest) key c =
            (k, v) :: addToMapping rest key c by simp [addToMapping, hk]] at hkv
        rcases List.mem_cons.mp hkv with rfl | hmem
        · have hv := hvals (k, v) (List.mem_cons_self _ _)
          simp only at hv
          rw [List.filter_append]
          have : (fmt c.timestamp == k) = false := by
            rw [hc]
            exact beq_false_of_ne (Ne.symm hk)
          simp [hv, this]
        · have hnodup' : (rest.map Prod.fst).Nodup := by
            rw [List.map_cons] at hnodup
            exact (List.nodup_cons.mp hnodup).2
          have hvals' : ∀ kv ∈ rest,
              kv.2 = P.filter (fun x => fmt x.timestamp == kv.1) :=
            fun kv h => hvals kv (List.mem_cons_of_mem _ h)
          have hfresh' : key ∉ rest.map Prod.fst →
              P.filter (fun x => fmt x.timestamp == key) = [] := by
            intro hnotin
            apply hfresh
            simp only [List.map_cons, List.mem_cons]
            rintro (heq | hmem2)
            · exact hk heq.symm
            · exact hnotin hmem2
          exact ih P hnodup' hvals' hfresh' kv hmem

lemma buildMapping_invariant (fmt : String → String) :
    ∀ (cs : List Crumb) (m : List (String × List Crumb)) (P : List Crumb),
      (m.map Prod.fst).Nodup →
      (∀ kv ∈ m, kv.2 = P.filter (fun x => fmt x.timestamp == kv.1)) →
      (∀ k, k ∈ m.map Prod.fst ↔ (k ≠ "" ∧ ∃ x ∈ P, fmt x.timestamp = k)) →
      ((cs.foldl (fun m c =>
          let ts := fmt c.timestamp
          if ts = "" then m else addToMapping m ts c) m).map Prod.fst).Nodup ∧
      (∀ kv ∈ cs.foldl (fun m c =>
          let ts := fmt c.timestamp
          if ts = "" then m else addToMapping m ts c) m,
        kv.2 = (P ++ cs).filter (fun x => fmt x.timestamp == kv.1)) ∧
      (∀ k, k ∈ (cs.foldl (fun m c =>
          let ts := fmt c.timestamp
          if ts = "" then m else addToMapping m ts c) m).map Prod.fst ↔
        (k ≠ "" ∧ ∃ x ∈ P ++ cs, fmt x.timestamp = k)) := by
  intro cs
  induction cs with
  | nil =>
      intro m P h1 h2 h3
      simp only [List.foldl_nil, List.append_nil]
      exact ⟨h1, h2, h3⟩
  | cons c cs ih =>
      intro m P h1 h2 h3
      simp only [List.foldl_cons]
      by_cases hts : fmt c.timestamp = ""
      · rw [if_pos hts]
        have h2' : ∀ kv ∈ m,
            kv.2 = (P ++ [c]).filter (fun x => fmt x.timestamp == kv.1) := by
          intro kv hkv
          rw [h2 kv hkv, List.filter_append]
          have hk1 : kv.1 ≠ "" := by
            have := (h3 kv.1).mp (List.mem_map_of_mem _ hkv)
            exact this.1
          have : (fmt c.timestamp == kv.1) = false := by
            rw [hts]
            exact beq_false_of_ne (Ne.symm hk1)
          simp [this]
        have h3' : ∀ k, k ∈ m.map Prod.fst ↔
            (k ≠ "" ∧ ∃ x ∈ P ++ [c], fmt x.timestamp = k) := by
          intro k
          rw [h3 k]
          constructor
          · rintro ⟨hk, x, hx, hfx⟩
            exact ⟨hk, x, List.mem_append_left _ hx, hfx⟩
          · rintro ⟨hk, x, hx, hfx⟩
            rcases List.mem_append.mp hx with hx | hx
            · exact ⟨hk, x, hx, hfx⟩
            · rcases List.mem_singleton.mp hx with rfl
              rw [hts] at hfx
              exact absurd hfx.symm hk
        have hres := ih m (P ++ [c]) h1 h2' h3'
        simp only [List.append_assoc, List.singleton_append] at hres
        exact hres
      · rw [if_neg hts]
        have hkeys := addToMapping_keys (fmt c.timestamp) c m
        have h1' : ((addToMapping m (fmt c.timestamp) c).map Prod.fst).Nodup := by
          rw [hkeys]
          by_cases hmem : fmt c.timestamp ∈ m.map Prod.fst
          · rw [if_pos hmem]
            exact h1
          · rw [if_neg hmem]
            simp [List.nodup_append, h1, hmem]
        have h2' : ∀ kv ∈ addToMapping m (fmt c.timestamp) c,
            kv.2 = (P ++ [c]).filter (fun x => fmt x.timestamp == kv.1) := by
          apply addToMapping_values fmt (fmt c.timestamp) c rfl m P h1 h2
          intro hnotin
          rw [List.filter_eq_nil_iff]
          intro x hx hbeq
          have hfx : fmt x.timestamp = fmt c.timestamp := by
            exact eq_of_beq hbeq
          exact hnotin ((h3 (fmt c.timestamp)).mpr ⟨hts, x, hx, hfx⟩)
        have h3' : ∀ k, k ∈ (addToMapping m (fmt c.timestamp) c).map Prod.fst ↔
            (k ≠ "" ∧ ∃ x ∈ P ++ [c], fmt x.timestamp = k) := by
          intro k
          rw [hkeys]
          by_cases hmem : fmt c.timestamp ∈ m.map Prod.fst
          · rw [if_pos hmem, h3 k]
            constructor
            · rintro ⟨hk, x, hx, hfx⟩
              exact ⟨hk, x, List.mem_append_left _ hx, hfx⟩
            · rintro ⟨hk, x, hx, hfx⟩
              rcases List.mem_append.mp hx with hx | hx
              · exact ⟨hk, x, hx, hfx⟩
              · rcases List.mem_singleton.mp hx with rfl
                rw [hfx] at hmem
                exact (h3 k).mp hmem
          · rw [if_neg hmem]
            constructor
            · intro hk
              rcases List.mem_append.mp hk with hk | hk
              · rcases (h3 k).mp hk with ⟨hne, x, hx, hfx⟩
                exact ⟨hne, x, List.mem_append_left _ hx, hfx⟩
              · rcases List.mem_singleton.mp hk with rfl
                exact ⟨hts, c, List.mem_append_right _ (by simp), rfl⟩
            · rintro ⟨hk, x, hx, hfx⟩
              rcases List.mem_append.mp hx with hx | hx
              · exact List.mem_append_left _ ((h3 k).mpr ⟨hk, x, hx, hfx⟩)
              · rcases List.mem_singleton.mp hx with rfl
                rw [hfx]
                simp
        have hres := ih (addToMapping m (fmt c.timestamp) c) (P ++ [c]) h1' h2' h3'
        simp only [List.append_assoc, List.singleton_append] at hres
        exact hres

lemma nodup_const_length_le_one {α : Type} (l : List α) (v : α)
    (hnodup : l.Nodup) (hconst : ∀ x ∈ l, x = v) : l.length ≤ 1 := by
  match l with
  | [] => simp
  | [x] => simp
  | x :: y :: rest =>
      have hx := hconst x (by simp)
      have hy := hconst y (by simp)
      rw [List.nodup_cons] at hnodup
      exact absurd (by simp [hx, hy] : x ∈ y :: rest) hnodup.1

lemma buildMapping_spec (fmt : String → String) (cs : List Crumb) :
    ((buildMapping fmt cs).map Prod.fst).Nodup ∧
      (∀ kv ∈ buildMapping fmt cs,
        kv.2 = cs.filter (fun x => fmt x.timestamp == kv.1)) ∧
      (∀ k, k ∈ (buildMapping fmt cs).map Prod.fst ↔
        (k ≠ "" ∧ ∃ x ∈ cs, fmt x.timestamp = k)) := by
  have h := buildMapping_invariant fmt cs [] [] List.nodup_nil
    (by intro kv hkv; cases hkv) (by intro k; simp)
  simp only [List.nil_append] at h
  exact h

lemma extractHighlights_eq_map (fmt : String → String) (crumbs : List Crumb)
    (active : Option Crumb) :
    extractHighlights fmt crumbs active =
      (buildMapping fmt (crumbs.filter isNotable)).map (fun kv =>
        { timestamp := kv.1, crumbs := kv.2,
          active :=
            decide (active.map (fun a => fmt a.timestamp) = some kv.1) }) := rfl

lemma extractHighlights_timestamps (fmt : String → String)
    (crumbs : List Crumb) (active : Option Crumb) :
    (extractHighlights fmt crumbs active).map CrumbGroup.timestamp =
      (buildMapping fmt (crumbs.filter isNotable)).map Prod.fst := by
  rw [extractHighlights_eq_map, List.map_map]
  rfl

lemma extractHighlights_ts_nodup (fmt : String → String) (crumbs : List Crumb)
    (active : Option Crumb) :
    ((extractHighlights fmt crumbs active).map CrumbGroup.timestamp).Nodup := by
  rw [extractHighlights_timestamps]
  exact (buildMapping_spec fmt (crumbs.filter isNotable)).1

lemma extractHighlights_group_crumbs (fmt : String → String)
    (crumbs : List Crumb) (active : Option Crumb) :
    ∀ g ∈ extractHighlights fmt crumbs active,
      g.crumbs = crumbs.filter
        (fun c => isNotable c && (fmt c.timestamp == g.timestamp)) := by
  intro g hg
  rw [extractHighlights_eq_map] at hg
  rcases List.mem_map.mp hg with ⟨kv, hkv, rfl⟩
  have hval := (buildMapping_spec fmt (crumbs.filter isNotable)).2.1 kv hkv
  simp only
  rw [hval, List.filter_filter]
  apply List.filter_congr
  intro a _
  exact Bool.and_comm _ _

lemma extractHighlights_group_active (fmt : String → String)
    (crumbs : List Crumb) (active : Option Crumb) :
    ∀ g ∈ extractHighlights fmt crumbs active,
      (g.active = true ↔
        ∃ a, active = some a ∧ fmt a.timestamp = g.timestamp) := by
  intro g hg
  rw [extractHighlights_eq_map] at hg
  rcases List.mem_map.mp hg with ⟨kv, hkv, rfl⟩
  cases active with
  | none => simp
  | some a => simp [eq_comm]

/-- **C1** — For every breadcrumb list and optional active crumb (and every
key formatting producing non-empty keys, as
`moment(...).format('YYYY-MM-DDTHH:mm:ss')` does), `extractHighlights`
groups the breadcrumbs by formatted timestamp: the group keys are pairwise
distinct and are exactly the formatted timestamps of the notable input
crumbs; each group's crumb list is exactly the input crumbs whose category
is present, non-empty and in `NOTABLE_CATEGORIES` and whose formatted
timestamp equals the group's key; other crumbs appear in no group. -/
theorem extractHighlights_grouping (fmt : String → String)
    (crumbs : List Crumb) (active : Option Crumb)
    (hne : ∀ c ∈ crumbs, fmt c.timestamp ≠ "") :
    ((extractHighlights fmt crumbs active).map CrumbGroup.timestamp).Nodup ∧
      (∀ k,
        k ∈ (extractHighlights fmt crumbs active).map CrumbGroup.timestamp ↔
          ∃ c ∈ crumbs, isNotable c = true ∧ fmt c.timestamp = k) ∧
      (∀ g ∈ extractHighlights fmt crumbs active,
        g.crumbs = crumbs.filter
          (fun c => isNotable c && (fmt c.timestamp == g.timestamp))) ∧
      (∀ c ∈ crumbs, isNotable c = false →
        ∀ g ∈ extractHighlights fmt crumbs active, c ∉ g.crumbs) := by
  refine ⟨extractHighlights_ts_nodup fmt crumbs active, ?_,
    extractHighlights_group_crumbs fmt crumbs active, ?_⟩
  · intro k
    rw [extractHighlights_timestamps,
      (buildMapping_spec fmt (crumbs.filter isNotable)).2.2 k]
    constructor
    · rintro ⟨_, x, hx, hfx⟩
      rcases List.mem_filter.mp hx with ⟨hxc, hnot⟩
      exact ⟨x, hxc, hnot, hfx⟩
    · rintro ⟨c, hc, hnot, hfx⟩
      exact ⟨hfx ▸ hne c hc, c, List.mem_filter.mpr ⟨hc, hnot⟩, hfx⟩
  · intro c hc hnotable g hg hmem
    rw [extractHighlights_group_crumbs fmt crumbs active g hg] at hmem
    have := (List.mem_filter.mp hmem).2
    rw [Bool.and_eq_true] at this
    rw [hnotable] at this
    exact Bool.false_ne_true this.1

/-- Witness for C1: two crumbs sharing a timestamp (one notable, one with
a missing category) under the identity key formatting; the hypothesis and
the first conclusion evaluate concretely. -/
theorem extractHighlights_grouping_witness :
    (∀ c ∈ [Crumb.mk (some "click") "t1" "debug" 1 "red",
            Crumb.mk none "t1" "error" 2 "blue"],
        (fun s : String => s) c.timestamp ≠ "") ∧
      ((extractHighlights (fun s => s)
          [Crumb.mk (some "click") "t1" "debug" 1 "red",
           Crumb.mk none "t1" "error" 2 "blue"] none).map
        CrumbGroup.timestamp).Nodup :=
  ⟨by decide,
    (extractHighlights_grouping (fun s => s)
      [Crumb.mk (some "click") "t1" "debug" 1 "red",
       Crumb.mk none "t1" "error" 2 "blue"] none (by decide)).1⟩

/-- **C9** — Group keys of `extractHighlights` are pairwise distinct; a
group is active exactly when its key equals the active crumb's formatted
timestamp; with no active crumb no group is active; and at most one group
is active. -/
theorem extractHighlights_at_most_one_active (fmt : String → String)
    (crumbs : List Crumb) (active : Option Crumb) :
    ((extractHighlights fmt crumbs active).map CrumbGroup.timestamp).Nodup ∧
      (∀ g ∈ extractHighlights fmt crumbs active,
        (g.active = true ↔
          ∃ a, active = some a ∧ fmt a.timestamp = g.timestamp)) ∧
      (active = none →
        ∀ g ∈ extractHighlights fmt crumbs active, g.active = false) ∧
      ((extractHighlights fmt crumbs active).filter
          (fun g => g.active)).length ≤ 1 := by
  refine ⟨extractHighlights_ts_nodup fmt crumbs active,
    extractHighlights_group_active fmt crumbs active, ?_, ?_⟩
  · rintro rfl g hg
    have h := extractHighlights_group_active fmt crumbs none g hg
    rw [Bool.eq_false_iff]
    intro hact
    rcases h.mp hact with ⟨a, ha, _⟩
    cases ha
  · cases active with
    | none =>
        have : (extractHighlights fmt crumbs none).filter
            (fun g => g.active) = [] := by
          rw [List.filter_eq_nil_iff]
          intro g hg hact
          have h := extractHighlights_group_active fmt crumbs none g hg
          rcases h.mp (by simpa using hact) with ⟨a, ha, _⟩
          cases ha
        rw [this]
        simp
    | some a =>
        have hnd : (((extractHighlights fmt crumbs (some a)).filter
            (fun g => g.active)).map CrumbGroup.timestamp).Nodup :=
          List.Nodup.sublist
            (List.Sublist.map CrumbGroup.timestamp (List.filter_sublist _))
            (extractHighlights_ts_nodup fmt crumbs (some a))
        have hconst : ∀ x ∈ ((extractHighlights fmt crumbs (some a)).filter
            (fun g => g.active)).map CrumbGroup.timestamp,
            x = fmt a.timestamp := by
          intro x hx
          rcases List.mem_map.mp hx with ⟨g, hgfl, rfl⟩
          rcases List.mem_filter.mp hgfl with ⟨hg, hact⟩
          have h := extractHighlights_group_active fmt crumbs (some a) g hg
          rcases h.mp (by simpa using hact) with ⟨a', ha', hfa⟩
          have : a' = a := by
            injection ha' with h'
            exact h'.symm
          rw [← hfa, this]
        have := nodup_const_length_le_one _ (fmt a.timestamp) hnd hconst
        rw [List.length_map] at this
        exact this

/-- Witness for C9: with an active crumb sharing its second's timestamp,
the concrete group list has exactly one active group. -/
theorem extractHighlights_at_most_one_active_witness :
    ((extractHighlights (fun s => s)
        [Crumb.mk (some "navigation") "t2" "info" 3 "green"]
        (some (Crumb.mk (some "navigation") "t2" "info" 3 "green"))).filter
      (fun g => g.active)).length ≤ 1 :=
  (extractHighlights_at_most_one_active (fun s => s)
    [Crumb.mk (some "navigation") "t2" "info" 3 "green"]
    (some (Crumb.mk (some "navigation") "t2" "info" 3 "green"))).2.2.2

/-- Witness for C6: the empty frame list strokes no rectangle, with the
`frames = []` hypothesis discharged concretely. -/
theorem draw_one_rect_per_frame_witness :
    strokedRects (drawSelectedFrames [] "red" 2 (fun r => r)) = [] :=
  (draw_one_rect_per_frame [] "red" 2 (fun r => r)).2.2.2 rfl

/-- Witness for C5: a concrete event with one custom and one standard
measurement renders exactly one row, for the custom metric. -/
theorem customMetrics_spec_witness :
    "Custom Performance Metrics" = "Custom Performance Metrics" ∧
      [("custom.count", "10")] =
        (([Measurement.mk "custom.count" 10 "none",
           Measurement.mk "lcp" 10 "millisecond"].filter
            (fun m => isCustomMeasurement m.key)).map
          (fun m => (m.key, formatMetricValue m.unit m.value))) ∧
      (∀ r ∈ [("custom.count", "10")], isCustomMeasurement r.1 = true) ∧
      "lcp" ∉ [("custom.count", "10")].map Prod.fst :=
  (customMetrics_spec [Measurement.mk "custom.count" 10 "none",
      Measurement.mk "lcp" 10 "millisecond"]).2.1
    "Custom Performance Metrics" [("custom.count", "10")] (by decide)

/-- Witness for the amended C7: at a concrete props value the equivalence
holds reflexively. -/
theorem fileField_view_determined_witness :
    fileFieldView none true = fileFieldView none true ↔ true = true :=
  fileField_view_determined_by_props_and_state none true true

end Sentry

